import Mathlib

/-!
# The 16x16x16 int8 matrix-core kernel `igemm_16x16x16`

A shallow embedding of `src/matrix-cores/src/mfma_i32_16x16x16i8.cpp`:
the per-lane index arithmetic, the gather loop, the register packing, the
`v_mfma_i32_16x16x16i8` instruction, the scatter loop and the control flow of
`main`, followed by the properties proved about them.
-/

namespace MatrixCores

/-! ## Compile-time constants (source lines 41-51) -/

/-- Source: `constexpr int M = 16;` -/
def M : Nat := 16
/-- Source: `constexpr int N = 16;` -/
def N : Nat := 16
/-- Source: `constexpr int K = 16;` -/
def K : Nat := 16

/-- Source: `constexpr int LDA = K;` -/
def LDA : Nat := K
/-- Source: `constexpr int LDB = N;` -/
def LDB : Nat := N
/-- Source: `constexpr int LDD = N;` -/
def LDD : Nat := N

/-- Source: `constexpr int A_size = M * LDA;` -/
def A_size : Nat := M * LDA
/-- Source: `constexpr int B_size = K * LDB;` -/
def B_size : Nat := K * LDB
/-- Source: `constexpr int D_size = M * LDD;` -/
def D_size : Nat := M * LDD

/-! ## Index arithmetic of one lane (source lines 100-107 and 140-142)

`tx`, `ty` stand for `threadIdx.x`, `threadIdx.y`.  A block has at most 1024
threads, so none of the sums below comes near the 32-bit limit and the
arithmetic is done in `Nat` without reduction. -/

/-- Source: `a_idx = threadIdx.x * LDA + i + threadIdx.y * 4` -/
def a_idx (tx ty i : Nat) : Nat := tx * LDA + i + ty * 4

/-- Source: `b_idx = threadIdx.x + i * LDB + threadIdx.y * LDB * 4` -/
def b_idx (tx ty i : Nat) : Nat := tx + i * LDB + ty * LDB * 4

/-- Source: `d_idx = threadIdx.x + i * LDD + threadIdx.y * 4 * LDD` -/
def d_idx (tx ty i : Nat) : Nat := tx + i * LDD + ty * 4 * LDD

/-- An index map `idx` sends the triples `(x, y, i)` of a lane group of shape
`(X, Y)` with four register slots one-to-one onto the linear positions
`[0, 256)` of a 16x16 matrix: every index is in range, two distinct triples
never meet, and every position is reached. -/
def LayoutBijection (idx : Nat → Nat → Nat → Nat) (X Y : Nat) : Prop :=
  (∀ x < X, ∀ y < Y, ∀ i < 4, idx x y i < 256) ∧
  (∀ x < X, ∀ y < Y, ∀ i < 4, ∀ x' < X, ∀ y' < Y, ∀ i' < 4,
      idx x y i = idx x' y' i' → x = x' ∧ y = y' ∧ i = i') ∧
  (∀ p < 256, ∃ x < X, ∃ y < Y, ∃ i < 4, idx x y i = p)

/-! ## Machine integers -/

/-- The values an `int8_t` can hold. -/
def IsInt8 (v : Int) : Prop := -128 ≤ v ∧ v ≤ 127

instance (v : Int) : Decidable (IsInt8 v) := by
  unfold IsInt8
  infer_instance

/-- The signed value of the low 32 bits of `z`: what a signed 32-bit register
holds after an addition that wraps modulo `2^32`. -/
def wrap32 (z : Int) : Int := (z + 2147483648) % 4294967296 - 2147483648

/-- The expression `*reinterpret_cast<int32_t*>(a)` for `int8_t a[4]`: the four
bytes read as one 32-bit word, `a[0]` in the lowest byte (the target is
little-endian).  The word is kept as its bit pattern, a natural number below
`2^32`. -/
def pack4 (a : Nat → Int) : Nat :=
  (a 0 % 256).toNat + (a 1 % 256).toNat * 256 + (a 2 % 256).toNat * 65536
    + (a 3 % 256).toNat * 16777216

/-- Byte `j` of the 32-bit word `w`. -/
def byteOf (w j : Nat) : Nat := w / 256 ^ j % 256

/-- A byte read as a signed 8-bit integer. -/
def sext8 (b : Nat) : Int := if b < 128 then (b : Int) else (b : Int) - 256

/-- The signed 8-bit value in byte `j` of the operand register `w`. -/
def slot8 (w j : Nat) : Int := sext8 (byteOf w j)

/-! ## Device memory

A buffer is the list of its elements.  An access outside the buffer is
undefined behaviour in the source; here it makes the kernel fail (`none`). -/

/-- The read `buf[idx]`. -/
def load (buf : List Int) (idx : Nat) : Option Int := buf[idx]?

/-- The write `buf[idx] = v`. -/
def store (buf : List Int) (idx : Nat) (v : Int) : Option (List Int) :=
  if idx < buf.length then some (buf.set idx v) else none

/-! ## The kernel `igemm_16x16x16` (source lines 54-147) -/

/-- The lane-local arrays `int8_t a[4]; int8_t b[4];`. -/
structure Gathered where
  a : Nat → Int
  b : Nat → Int

/-- The gather loop of lines 99-109 for thread `(tx, ty)`:
`gatherLoop A B tx ty n` is the state of `a`, `b` after the iterations
`i = 0, ..., n - 1`; the whole loop is `n = 4`.  The arrays start
uninitialised (written as zeros here; all four slots are overwritten). -/
def gatherLoop (A B : List Int) (tx ty : Nat) : Nat → Option Gathered
  | 0 => some ⟨fun _ => 0, fun _ => 0⟩
  | n + 1 => do
    let g ← gatherLoop A B tx ty n
    let av ← load A (a_idx tx ty n)
    let bv ← load B (b_idx tx ty n)
    some ⟨Function.update g.a n av, Function.update g.b n bv⟩

/-- The 64 lanes of the single wavefront launched as `dim3(16, 4)`, in lane
order: lane `l` is the thread with `threadIdx = (l % 16, l / 16)`. -/
def lanes : List (Nat × Nat) := (List.range 64).map (fun l => (l % 16, l / 16))

/-- Every lane of the list runs the gather loop and packs its two arrays into
the operand registers of the instruction; the result lists, lane by lane, the
pair (A operand, B operand). -/
def gatherLanes (A B : List Int) : List (Nat × Nat) → Option (List (Nat × Nat))
  | [] => some []
  | t :: rest => do
    let g ← gatherLoop A B t.1 t.2 4
    let gs ← gatherLanes A B rest
    some ((pack4 g.a, pack4 g.b) :: gs)

/-- Sixteen multiply-accumulate steps into a signed 32-bit accumulator that
starts at `c`; every addition wraps modulo `2^32`. -/
def accumulate32 (c : Int) (term : Nat → Int) : Int :=
  (List.range 16).foldl (fun acc k => wrap32 (acc + term k)) c

/-- Modelled from the spec: the hardware instruction `v_mfma_i32_16x16x16i8`
issued by the inline assembly of lines 113-120 is not code of the repository.
At register level, for the wavefront of 64 lanes `(x, y)`, `x < 16`, `y < 4`:
result slot `i` of lane `(x, y)` is accumulator slot `i` of that lane plus the
sum over `k < 16` of (a-slot `k % 4` of lane `(4 * y + i, k / 4)`) times
(b-slot `k % 4` of lane `(x, k / 4)`), accumulated in signed 32-bit
arithmetic.  This is the operand layout the comments of lines 70-87 and
126-134 describe: slot `j` of the A operand of lane `(x, y)` is
`A[x][j + 4 * y]`, slot `j` of its B operand is `B[j + 4 * y][x]`, and its
result slot `i` is `D[i + 4 * y][x]`.  `srcA x y`, `srcB x y` are the packed
operand registers of lane `(x, y)` and `srcC x y i` its accumulator slot `i`. -/
def v_mfma_i32_16x16x16i8 (srcA srcB : Nat → Nat → Nat) (srcC : Nat → Nat → Nat → Int)
    (x y i : Nat) : Int :=
  accumulate32 (srcC x y i)
    (fun k => slot8 (srcA (4 * y + i) (k / 4)) (k % 4) * slot8 (srcB x (k / 4)) (k % 4))

/-- One iteration of the scatter loop of lines 139-145 in one lane:
`D[d_idx] = d[i]` for the triple `t = (threadIdx.x, threadIdx.y, i)`. -/
def scatterStep (d : Nat → Nat → Nat → Int) (D : List Int) (t : Nat × Nat × Nat) :
    Option (List Int) :=
  store D (d_idx t.1 t.2.1 t.2.2) (d t.1 t.2.1 t.2.2)

/-- The order in which the wavefront performs the 256 stores: the lanes run
in lockstep, so iteration `i` is executed by all 64 lanes before iteration
`i + 1`. -/
def scatterSchedule : List (Nat × Nat × Nat) :=
  (List.range 4).flatMap (fun i => lanes.map (fun t => (t.1, t.2, i)))

/-- The stores of the triples of `sched`, in that order, starting from `D`. -/
def scatter (d : Nat → Nat → Nat → Int) (sched : List (Nat × Nat × Nat)) (D : List Int) :
    Option (List Int) :=
  sched.foldlM (scatterStep d) D

/-- The operand registers of lane `(x, y)`, looked up by its lane number
`x + y * 16` (the same linearisation the source uses for `cycles`). -/
def laneRegs (regs : List (Nat × Nat)) (x y : Nat) : Nat × Nat :=
  regs.getD (x + y * 16) (0, 0)

/-- The kernel, launched as `<<<1, dim3(16, 4)>>>` on the buffers `A`, `B`,
`D`.  `gfx90a`, `gfx908` say for which target the device code was compiled
(`#if __gfx90a__ || __gfx908__`); for any other target the body is empty.
The result is the final content of `D`, or `none` when some lane accesses a
buffer out of bounds.  The `cycles` counters (lines 92-94, 136) only time the
instruction and do not touch `A`, `B` or `D`; they are left out. -/
def igemm_16x16x16 (gfx90a gfx908 : Bool) (A B D : List Int) : Option (List Int) :=
  if gfx90a || gfx908 then do
    let regs ← gatherLanes A B lanes
    let d := v_mfma_i32_16x16x16i8 (fun x y => (laneRegs regs x y).1)
      (fun x y => (laneRegs regs x y).2) (fun _ _ _ => 0)
    scatter d scatterSchedule D
  else
    some D

/-- The matrix product the kernel is meant to compute, in the words of the
specification: `D[r][c] = Σ_{k < 16} A[r][k] * B[k][c]` over row-major
matrices of stride 16, as an exact integer. -/
def matmulEntry (A B : List Int) (r c : Nat) : Int :=
  ∑ k in Finset.range 16, A.getD (r * 16 + k) 0 * B.getD (k * 16 + c) 0

/-! ## The host program `main` (source lines 150-207) -/

/-- What `main` does that is visible from outside, in program order. -/
inductive Event where
  /-- A line of fixed text written to `std::cout`. -/
  | print (msg : String)
  /-- Lines 157-172: the random host matrices and the host reference result. -/
  | hostPrepare
  /-- A `hipMalloc` call for the named device pointer. -/
  | hipMalloc (ptr : String)
  /-- A host-to-device `hipMemcpy` into the named device pointer. -/
  | hipMemcpyHostToDevice (ptr : String)
  /-- The kernel launch `igemm_16x16x16<<<grid, dim3(dimX, dimY)>>>`. -/
  | launch (grid dimX dimY : Nat)
  /-- The call `hipGetLastError()`. -/
  | hipGetLastError
  /-- A device-to-host `hipMemcpy` from the named device pointer. -/
  | hipMemcpyDeviceToHost (ptr : String)
  /-- Lines 194-196: the line reporting `compute_l2_error`. -/
  | printL2Error
  /-- Line 199: the line reporting `cycles[i]`. -/
  | printCycles (i : Nat)
  /-- A `hipFree` call for the named device pointer. -/
  | hipFree (ptr : String)
  deriving DecidableEq, Repr

/-- How a run of `main` ends. -/
inductive Ending where
  /-- A call `exit(code)`. -/
  | exit (code : Int)
  /-- The `return code;` at the end of `main`. -/
  | returned (code : Int)
  /-- The `n`-th `HIP_CHECK` of `main` did not let control through. -/
  | checkFailed (n : Nat)
  deriving DecidableEq, Repr

/-- A run of `main`: the events in order and the way it ended. -/
structure Run where
  events : List Event
  ending : Ending
  deriving DecidableEq, Repr

/-- The exit status the parent process sees: the low 8 bits of the code. -/
def exitStatus : Ending → Option Int
  | .exit code => some (code % 256)
  | .returned code => some (code % 256)
  | .checkFailed _ => none

/-- A device allocation, a copy to or from the device, or a kernel launch. -/
def Event.isDevice : Event → Bool
  | .hipMalloc _ => true
  | .hipMemcpyHostToDevice _ => true
  | .hipMemcpyDeviceToHost _ => true
  | .launch _ _ _ => true
  | _ => false

/-- An unchecked statement `e` followed by the rest of the program. -/
def andThen (e : Event) (rest : Run) : Run := ⟨e :: rest.events, rest.ending⟩

/-- A loop of unchecked statements followed by the rest of the program. -/
def andThenAll (es : List Event) (rest : Run) : Run := ⟨es ++ rest.events, rest.ending⟩

/-- The statement `HIP_CHECK(call)`, number `n` in `main`, followed by the rest
of the program.  The macro `HIP_CHECK` is declared in `helper.hpp`, which is
not among the sources, so whether the statement lets control through is the
parameter `ok`; when it does not, the run stops there. -/
def HIP_CHECK (ok : Bool) (n : Nat) (call : Event) (rest : Run) : Run :=
  if ok then ⟨call :: rest.events, rest.ending⟩ else ⟨[call], .checkFailed n⟩

/-- The diagnostic of line 152. -/
def gateMessage : String :=
  "mfma_f32_16x16x16f16 instruction only available on gfx908 or later."

/-- Lines 157-207: what `main` does once the capability gate has let it pass.
`hipOk n` tells whether the `n`-th `HIP_CHECK` lets control through.  The
values printed at lines 194-200 depend on the device and are not recorded;
the host-only bookkeeping of `cycles` (lines 176, 202) is not an event. -/
def mainAfterGate (hipOk : Nat → Bool) : Run :=
  andThen .hostPrepare <|
  HIP_CHECK (hipOk 0) 0 (.hipMalloc "A_d") <|
  HIP_CHECK (hipOk 1) 1 (.hipMalloc "B_d") <|
  HIP_CHECK (hipOk 2) 2 (.hipMalloc "D_d") <|
  HIP_CHECK (hipOk 3) 3 (.hipMalloc "cycles_d") <|
  HIP_CHECK (hipOk 4) 4 (.hipMemcpyHostToDevice "A_d") <|
  HIP_CHECK (hipOk 5) 5 (.hipMemcpyHostToDevice "B_d") <|
  andThen (.launch 1 16 4) <|
  HIP_CHECK (hipOk 6) 6 .hipGetLastError <|
  HIP_CHECK (hipOk 7) 7 (.hipMemcpyDeviceToHost "D_d") <|
  HIP_CHECK (hipOk 8) 8 (.hipMemcpyDeviceToHost "cycles_d") <|
  andThen .printL2Error <|
  andThenAll ((List.range (16 * 4)).map .printCycles) <|
  HIP_CHECK (hipOk 9) 9 (.hipFree "D_d") <|
  HIP_CHECK (hipOk 10) 10 (.hipFree "B_d") <|
  HIP_CHECK (hipOk 11) 11 (.hipFree "A_d") <|
  ⟨[], .returned 0⟩

/-- The host program.  `gpuArchCheck` (declared in `helper.hpp`, not among the
sources) is an oracle telling whether the device is of the named architecture.
Lines 151-155 are the capability gate. -/
def main (gpuArchCheck : String → Bool) (hipOk : Nat → Bool) : Run :=
  if !gpuArchCheck "gfx90a" && !gpuArchCheck "gfx908" then
    ⟨[.print gateMessage], .exit (-1)⟩
  else
    mainAfterGate hipOk

/-! ## Index facts -/

theorem a_idx_eq (tx ty i : Nat) : a_idx tx ty i = tx * 16 + (i + 4 * ty) := by
  simp only [a_idx, LDA, K]; omega

/-- The B index in row-major form: row `i + 4 * ty`, column `tx`. -/
theorem b_idx_eq (tx ty i : Nat) : b_idx tx ty i = (i + 4 * ty) * 16 + tx := by
  simp only [b_idx, LDB, N]; omega

/-- The D index in row-major form: row `i + 4 * ty`, column `tx`. -/
theorem d_idx_eq (tx ty i : Nat) : d_idx tx ty i = (i + 4 * ty) * 16 + tx := by
  simp only [d_idx, LDD, N]; omega

/-- For the launch shape `(16, 4)` the A index map is a bijection onto `[0,
256)`. -/
theorem a_idx_layout : LayoutBijection a_idx 16 4 := by
  refine ⟨?_, ?_, ?_⟩
  · intro x hx y hy i hi
    rw [a_idx_eq]; omega
  · intro x hx y hy i hi x' hx' y' hy' i' hi' h
    rw [a_idx_eq, a_idx_eq] at h; omega
  · intro p hp
    refine ⟨p / 16, by omega, p % 16 / 4, by omega, p % 4, by omega, ?_⟩
    rw [a_idx_eq]; omega

/-- For the launch shape `(16, 4)` the B index map is a bijection onto `[0,
256)`. -/
theorem b_idx_layout : LayoutBijection b_idx 16 4 := by
  refine ⟨?_, ?_, ?_⟩
  · intro x hx y hy i hi
    rw [b_idx_eq]; omega
  · intro x hx y hy i hi x' hx' y' hy' i' hi' h
    rw [b_idx_eq, b_idx_eq] at h; omega
  · intro p hp
    refine ⟨p % 16, by omega, p / 64, by omega, p / 16 % 4, by omega, ?_⟩
    rw [b_idx_eq]; omega

/-- For the launch shape `(16, 4)` the D index map is a bijection onto `[0,
256)`. -/
theorem d_idx_layout : LayoutBijection d_idx 16 4 := by
  refine ⟨?_, ?_, ?_⟩
  · intro x hx y hy i hi
    rw [d_idx_eq]; omega
  · intro x hx y hy i hi x' hx' y' hy' i' hi' h
    rw [d_idx_eq, d_idx_eq] at h; omega
  · intro p hp
    refine ⟨p % 16, by omega, p / 64, by omega, p / 16 % 4, by omega, ?_⟩
    rw [d_idx_eq]; omega

/-! ## Machine arithmetic -/

theorem wrap32_of_range (z : Int) (h1 : -2147483648 ≤ z) (h2 : z < 2147483648) :
    wrap32 z = z := by
  unfold wrap32; omega

/-- Wrapping an intermediate sum does not change the wrapped total. -/
theorem wrap32_add_wrap32 (x y : Int) : wrap32 (wrap32 x + y) = wrap32 (x + y) := by
  unfold wrap32; omega

/-- Wrapping twice is wrapping once. -/
theorem wrap32_wrap32 (z : Int) : wrap32 (wrap32 z) = wrap32 z := by
  unfold wrap32; omega

/-- Step-by-step wrapping accumulation agrees, modulo `2^32`, with the exact
sum. -/
theorem foldl_wrap32 (term : Nat → Int) (c : Int) (n : Nat) :
    wrap32 ((List.range n).foldl (fun acc k => wrap32 (acc + term k)) c)
      = wrap32 (c + ∑ k in Finset.range n, term k) := by
  induction n with
  | zero => simp
  | succ n ih =>
    rw [List.range_succ, List.foldl_append, Finset.sum_range_succ]
    simp only [List.foldl_cons, List.foldl_nil]
    rw [wrap32_wrap32, ← wrap32_add_wrap32, ih, wrap32_add_wrap32]
    congr 1; ring

/-- The sixteen wrapping steps give the wrapped exact sum. -/
theorem accumulate32_eq (c : Int) (term : Nat → Int) :
    accumulate32 c term = wrap32 (c + ∑ k in Finset.range 16, term k) := by
  have h := foldl_wrap32 term c 15
  unfold accumulate32
  rw [show (16 : Nat) = 15 + 1 from rfl, List.range_succ, List.foldl_append,
    Finset.sum_range_succ]
  simp only [List.foldl_cons, List.foldl_nil]
  rw [← wrap32_add_wrap32, h, wrap32_add_wrap32]
  congr 1; ring

/-- A sum of `n` terms bounded by `m` in absolute value is bounded by `n * m`.
-/
theorem abs_sum_range_le (term : Nat → Int) (m : Int) (n : Nat)
    (h : ∀ k < n, |term k| ≤ m) : |∑ k in Finset.range n, term k| ≤ n * m := by
  induction n with
  | zero => simp
  | succ n ih =>
    rw [Finset.sum_range_succ]
    have h1 := ih (fun k hk => h k (Nat.lt_succ_of_lt hk))
    have h2 := h n (Nat.lt_succ_self n)
    have h3 := abs_add (∑ k in Finset.range n, term k) (term n)
    push_cast
    linarith

/-- A product of two values bounded by `m` in absolute value is bounded by `m *
m`. -/
theorem abs_mul_le_of_abs_le (a b m : Int) (ha : |a| ≤ m) (hb : |b| ≤ m) :
    |a * b| ≤ m * m := by
  rw [abs_mul]
  exact mul_le_mul ha hb (abs_nonneg b) (le_trans (abs_nonneg a) ha)

/-- Packing four `int8_t` values into a word and reading slot `j` back returns
`a j`. -/
theorem slot8_pack4 (a : Nat → Int) (j : Nat) (hj : j < 4)
    (h : ∀ i < 4, IsInt8 (a i)) : slot8 (pack4 a) j = a j := by
  have h0 := h 0 (by omega)
  have h1 := h 1 (by omega)
  have h2 := h 2 (by omega)
  have h3 := h 3 (by omega)
  unfold IsInt8 at h0 h1 h2 h3
  unfold slot8 sext8 byteOf pack4
  interval_cases j <;> simp only [pow_zero, pow_one, Nat.reducePow] <;> split <;> omega

/-! ## The gather phase -/

theorem gatherLoop_spec (A B : List Int) (tx ty n : Nat)
    (hA : ∀ i < n, a_idx tx ty i < A.length) (hB : ∀ i < n, b_idx tx ty i < B.length) :
    ∃ g, gatherLoop A B tx ty n = some g ∧
      ∀ i < n, g.a i = A.getD (a_idx tx ty i) 0 ∧ g.b i = B.getD (b_idx tx ty i) 0 := by
  induction n with
  | zero => exact ⟨_, rfl, fun i hi => absurd hi (Nat.not_lt_zero i)⟩
  | succ n ih =>
    obtain ⟨g, hg, hspec⟩ := ih (fun i hi => hA i (by omega)) (fun i hi => hB i (by omega))
    have ha := hA n (by omega)
    have hb := hB n (by omega)
    refine ⟨⟨Function.update g.a n (A.getD (a_idx tx ty n) 0),
      Function.update g.b n (B.getD (b_idx tx ty n) 0)⟩, ?_, ?_⟩
    · simp [gatherLoop, hg, load, List.getElem?_eq_getElem ha, List.getElem?_eq_getElem hb,
        List.getD_eq_getElem _ _ ha, List.getD_eq_getElem _ _ hb]
    · intro i hi
      by_cases hin : i = n
      · subst hin; simp
      · have := hspec i (by omega)
        simp [Function.update_noteq hin, this]

/-- The packed word depends on the slots `0..3` only. -/
theorem pack4_congr (a a' : Nat → Int) (h : ∀ i < 4, a i = a' i) : pack4 a = pack4 a' := by
  unfold pack4
  rw [h 0 (by omega), h 1 (by omega), h 2 (by omega), h 3 (by omega)]

/-- When all indices are in bounds, every lane of the list gets its packed
operands. -/
theorem gatherLanes_spec (A B : List Int) (ls : List (Nat × Nat))
    (hA : ∀ t ∈ ls, ∀ i < 4, a_idx t.1 t.2 i < A.length)
    (hB : ∀ t ∈ ls, ∀ i < 4, b_idx t.1 t.2 i < B.length) :
    gatherLanes A B ls = some (ls.map (fun t =>
      (pack4 (fun i => A.getD (a_idx t.1 t.2 i) 0),
       pack4 (fun i => B.getD (b_idx t.1 t.2 i) 0)))) := by
  induction ls with
  | nil => rfl
  | cons t rest ih =>
    obtain ⟨g, hg, hspec⟩ := gatherLoop_spec A B t.1 t.2 4
      (hA t (List.mem_cons_self t rest)) (hB t (List.mem_cons_self t rest))
    have ih1 := ih (fun s hs => hA s (List.mem_cons_of_mem t hs))
      (fun s hs => hB s (List.mem_cons_of_mem t hs))
    have e1 : pack4 g.a = pack4 (fun i => A.getD (a_idx t.1 t.2 i) 0) :=
      pack4_congr _ _ (fun i hi => (hspec i hi).1)
    have e2 : pack4 g.b = pack4 (fun i => B.getD (b_idx t.1 t.2 i) 0) :=
      pack4_congr _ _ (fun i hi => (hspec i hi).2)
    simp [gatherLanes, hg, ih1, e1, e2]

/-- The lanes of the wavefront are the threads `(x, y)` with `x < 16`, `y < 4`.
-/
theorem mem_lanes (t : Nat × Nat) : t ∈ lanes ↔ t.1 < 16 ∧ t.2 < 4 := by
  unfold lanes
  simp only [List.mem_map, List.mem_range]
  constructor
  · rintro ⟨l, hl, rfl⟩
    exact ⟨Nat.mod_lt _ (by omega), by simp only; omega⟩
  · rintro ⟨h1, h2⟩
    refine ⟨t.1 + t.2 * 16, by omega, ?_⟩
    ext
    · simp only; omega
    · simp only; omega

/-- The register lookup by lane number finds the entry of thread `(x, y)`. -/
theorem laneRegs_map (f : Nat × Nat → Nat × Nat) (x y : Nat) (hx : x < 16) (hy : y < 4) :
    laneRegs (lanes.map f) x y = f (x, y) := by
  have h1 : x + y * 16 < 64 := by omega
  have h2 : (x + y * 16) % 16 = x := by omega
  have h3 : (x + y * 16) / 16 = y := by omega
  unfold laneRegs lanes
  rw [List.getD_eq_getElem?_getD]
  simp [List.getElem?_map, List.getElem?_range h1, h2, h3]

/-! ## The instruction applied to the gathered registers -/

theorem isInt8_getD (A : List Int) (hA : ∀ v ∈ A, IsInt8 v) (p : Nat) : IsInt8 (A.getD p 0) := by
  by_cases hp : p < A.length
  · rw [List.getD_eq_getElem _ _ hp]
    exact hA _ (List.getElem_mem hp)
  · rw [List.getD_eq_default _ _ (by omega)]
    unfold IsInt8; omega

/-- On the gathered registers, result slot `i` of lane `(x, y)` is the wrapped
entry `(4 * y + i, x)` of the product. -/
theorem mfma_gathered (A B : List Int) (hA : ∀ v ∈ A, IsInt8 v) (hB : ∀ v ∈ B, IsInt8 v)
    (f : Nat × Nat → Nat × Nat)
    (hf : f = fun t => (pack4 (fun i => A.getD (a_idx t.1 t.2 i) 0),
      pack4 (fun i => B.getD (b_idx t.1 t.2 i) 0)))
    (x y i : Nat) (hx : x < 16) (hy : y < 4) (hi : i < 4) :
    v_mfma_i32_16x16x16i8 (fun x y => (laneRegs (lanes.map f) x y).1)
        (fun x y => (laneRegs (lanes.map f) x y).2) (fun _ _ _ => 0) x y i
      = wrap32 (matmulEntry A B (4 * y + i) x) := by
  unfold v_mfma_i32_16x16x16i8 matmulEntry
  rw [accumulate32_eq, zero_add]
  congr 1
  apply Finset.sum_congr rfl
  intro k hk
  have hk16 : k < 16 := Finset.mem_range.mp hk
  have hk4 : k / 4 < 4 := by omega
  have hm4 : k % 4 < 4 := Nat.mod_lt _ (by omega)
  simp only []
  rw [laneRegs_map f _ _ (by omega) hk4, laneRegs_map f _ _ hx hk4, hf]
  simp only []
  rw [slot8_pack4 _ _ hm4 (fun j _ => isInt8_getD A hA _),
    slot8_pack4 _ _ hm4 (fun j _ => isInt8_getD B hB _), a_idx_eq, b_idx_eq]
  have e1 : (4 * y + i) * 16 + (k % 4 + 4 * (k / 4)) = (4 * y + i) * 16 + k := by omega
  have e2 : (k % 4 + 4 * (k / 4)) * 16 + x = k * 16 + x := by omega
  rw [e1, e2]

/-- An `int8_t` value is at most 128 in absolute value. -/
theorem abs_le_of_isInt8 (v : Int) (h : IsInt8 v) : |v| ≤ 128 := by
  unfold IsInt8 at h
  rw [abs_le]; omega

/-- An entry of the product of matrices bounded by `m` is bounded by `16 * m *
m`. -/
theorem abs_matmulEntry_le (A B : List Int) (m : Int)
    (hA : ∀ p, |A.getD p 0| ≤ m) (hB : ∀ p, |B.getD p 0| ≤ m) (r c : Nat) :
    |matmulEntry A B r c| ≤ 16 * (m * m) := by
  unfold matmulEntry
  have h := abs_sum_range_le (fun k => A.getD (r * 16 + k) 0 * B.getD (k * 16 + c) 0) (m * m) 16
    (fun k _ => abs_mul_le_of_abs_le _ _ m (hA _) (hB _))
  simpa using h

/-- An entry of the product of two `int8_t` matrices fits in 32 signed bits. -/
theorem wrap32_matmulEntry (A B : List Int) (hA : ∀ v ∈ A, IsInt8 v) (hB : ∀ v ∈ B, IsInt8 v)
    (r c : Nat) : wrap32 (matmulEntry A B r c) = matmulEntry A B r c := by
  have h := abs_matmulEntry_le A B 128
    (fun p => abs_le_of_isInt8 _ (isInt8_getD A hA p))
    (fun p => abs_le_of_isInt8 _ (isInt8_getD B hB p)) r c
  rw [abs_le] at h
  exact wrap32_of_range _ (by omega) (by omega)

/-! ## The scatter phase -/

theorem scatter_nil (d : Nat → Nat → Nat → Int) (D : List Int) : scatter d [] D = some D := rfl

/-- The first store of a schedule is followed by the stores of the rest. -/
theorem scatter_cons (d : Nat → Nat → Nat → Int) (t : Nat × Nat × Nat)
    (ts : List (Nat × Nat × Nat)) (D : List Int) :
    scatter d (t :: ts) D = (scatterStep d D t).bind (scatter d ts) := by
  simp [scatter, List.foldlM_cons]

/-- When all addresses are in bounds, the stores succeed, keep the length, leave
untouched positions alone, and, addresses of distinct triples being distinct,
leave `d` of each triple at its address. -/
theorem scatter_spec (d : Nat → Nat → Nat → Int) (sched : List (Nat × Nat × Nat)) :
    ∀ D : List Int, (∀ t ∈ sched, d_idx t.1 t.2.1 t.2.2 < D.length) →
    ∃ D', scatter d sched D = some D' ∧ D'.length = D.length ∧
      (∀ p, (∀ t ∈ sched, d_idx t.1 t.2.1 t.2.2 ≠ p) → D'[p]? = D[p]?) ∧
      ((∀ s ∈ sched, ∀ t ∈ sched,
          d_idx s.1 s.2.1 s.2.2 = d_idx t.1 t.2.1 t.2.2 → s = t) →
        ∀ t ∈ sched, D'[d_idx t.1 t.2.1 t.2.2]? = some (d t.1 t.2.1 t.2.2)) := by
  induction sched with
  | nil =>
    intro D _
    exact ⟨D, rfl, rfl, fun _ _ => rfl, fun _ t ht => absurd ht (List.not_mem_nil t)⟩
  | cons t ts ih =>
    intro D hD
    have ht := hD t (List.mem_cons_self t ts)
    have hlen : (D.set (d_idx t.1 t.2.1 t.2.2) (d t.1 t.2.1 t.2.2)).length = D.length :=
      List.length_set _ _ _
    obtain ⟨D', hrun, hlen', hframe, hval⟩ :=
      ih (D.set (d_idx t.1 t.2.1 t.2.2) (d t.1 t.2.1 t.2.2))
        (fun s hs => by rw [hlen]; exact hD s (List.mem_cons_of_mem t hs))
    refine ⟨D', ?_, by rw [hlen', hlen], ?_, ?_⟩
    · rw [scatter_cons]
      simp [scatterStep, store, ht, hrun]
    · intro p hp
      rw [hframe p (fun s hs => hp s (List.mem_cons_of_mem t hs)), List.getElem?_set]
      simp [hp t (List.mem_cons_self t ts)]
    · intro hinj s hs
      have hinj' : ∀ u ∈ ts, ∀ v ∈ ts,
          d_idx u.1 u.2.1 u.2.2 = d_idx v.1 v.2.1 v.2.2 → u = v :=
        fun u hu v hv => hinj u (List.mem_cons_of_mem t hu) v (List.mem_cons_of_mem t hv)
      by_cases hmem : s ∈ ts
      · exact hval hinj' s hmem
      · have hst : s = t := by
          rcases List.mem_cons.mp hs with h | h
          · exact h
          · exact absurd h hmem
        subst hst
        have hfresh : ∀ u ∈ ts, d_idx u.1 u.2.1 u.2.2 ≠ d_idx s.1 s.2.1 s.2.2 := by
          intro u hu he
          have := hinj u (List.mem_cons_of_mem s hu) s (List.mem_cons_self s ts) he
          exact hmem (this ▸ hu)
        rw [hframe _ hfresh, List.getElem?_set]
        simp [ht]

/-- The schedule consists of the triples `(x, y, i)` with `x < 16`, `y < 4`, `i
< 4`. -/
theorem mem_scatterSchedule (t : Nat × Nat × Nat) :
    t ∈ scatterSchedule ↔ t.1 < 16 ∧ t.2.1 < 4 ∧ t.2.2 < 4 := by
  unfold scatterSchedule
  simp only [List.mem_flatMap, List.mem_map, List.mem_range]
  constructor
  · rintro ⟨i, hi, s, hs, rfl⟩
    have := (mem_lanes s).mp hs
    exact ⟨this.1, this.2, hi⟩
  · rintro ⟨h1, h2, h3⟩
    exact ⟨t.2.2, h3, (t.1, t.2.1), (mem_lanes _).mpr ⟨h1, h2⟩, rfl⟩

/-- No lane is listed twice. -/
theorem lanes_nodup : lanes.Nodup := by
  unfold lanes
  refine List.Nodup.map_on ?_ (List.nodup_range 64)
  intro a ha b hb h
  have h1 := congrArg Prod.fst h
  have h2 := congrArg Prod.snd h
  simp only at h1 h2
  omega

/-- No (lane, slot) pair is scheduled twice. -/
theorem scatterSchedule_nodup : scatterSchedule.Nodup := by
  unfold scatterSchedule
  rw [List.nodup_flatMap]
  refine ⟨?_, ?_⟩
  · intro i _
    refine List.Nodup.map_on ?_ lanes_nodup
    intro a _ b _ h
    have h1 := congrArg Prod.fst h
    have h2 := congrArg (fun t => t.2.1) h
    simp only at h1 h2
    exact Prod.ext h1 h2
  · refine List.Pairwise.imp ?_ (List.nodup_range 4)
    intro i j hij
    simp only [Function.onFun]
    rw [List.disjoint_left]
    intro t hi hj
    simp only [List.mem_map] at hi hj
    obtain ⟨a, _, rfl⟩ := hi
    obtain ⟨b, _, hb⟩ := hj
    have := congrArg (fun t => t.2.2) hb
    simp only at this
    exact hij this.symm

/-- Two scheduled triples with the same address are the same triple. -/
theorem d_idx_injOn_scatterSchedule :
    ∀ s ∈ scatterSchedule, ∀ t ∈ scatterSchedule,
      d_idx s.1 s.2.1 s.2.2 = d_idx t.1 t.2.1 t.2.2 → s = t := by
  intro s hs t ht h
  obtain ⟨s1, s2, s3⟩ := (mem_scatterSchedule s).mp hs
  obtain ⟨t1, t2, t3⟩ := (mem_scatterSchedule t).mp ht
  obtain ⟨e1, e2, e3⟩ := d_idx_layout.2.1 _ s1 _ s2 _ s3 _ t1 _ t2 _ t3 h
  exact Prod.ext e1 (Prod.ext e2 e3)

/-- No address is stored to twice. -/
theorem scatterSchedule_addresses_nodup :
    (scatterSchedule.map (fun t => d_idx t.1 t.2.1 t.2.2)).Nodup :=
  List.Nodup.map_on d_idx_injOn_scatterSchedule scatterSchedule_nodup

/-- The wavefront performs 256 stores. -/
theorem scatterSchedule_length : scatterSchedule.length = 256 := by
  simp [scatterSchedule, lanes, List.length_flatMap, Function.comp_def]

/-- Any schedule made of the 16x4x4 triples leaves `d x y i` at `d_idx x y i`
for all of them. -/
theorem scatter_full_of_mem (d : Nat → Nat → Nat → Int) (sched : List (Nat × Nat × Nat))
    (hmem : ∀ t, t ∈ sched ↔ t.1 < 16 ∧ t.2.1 < 4 ∧ t.2.2 < 4)
    (D : List Int) (hD : D.length = 256) :
    ∃ D', scatter d sched D = some D' ∧ D'.length = 256 ∧
      ∀ x < 16, ∀ y < 4, ∀ i < 4, D'[d_idx x y i]? = some (d x y i) := by
  obtain ⟨D', hrun, hlen, _, hval⟩ := scatter_spec d sched D (by
    intro t ht
    obtain ⟨t1, t2, t3⟩ := (hmem t).mp ht
    rw [hD]
    exact d_idx_layout.1 _ t1 _ t2 _ t3)
  refine ⟨D', hrun, by rw [hlen, hD], ?_⟩
  intro x hx y hy i hi
  refine hval ?_ (x, y, i) ((hmem _).mpr ⟨hx, hy, hi⟩)
  intro s hs t ht h
  obtain ⟨s1, s2, s3⟩ := (hmem s).mp hs
  obtain ⟨t1, t2, t3⟩ := (hmem t).mp ht
  obtain ⟨e1, e2, e3⟩ := d_idx_layout.2.1 _ s1 _ s2 _ s3 _ t1 _ t2 _ t3 h
  exact Prod.ext e1 (Prod.ext e2 e3)

/-- The scatter phase leaves `d x y i` at `d_idx x y i` for all lanes and slots.
-/
theorem scatter_full (d : Nat → Nat → Nat → Int) (D : List Int) (hD : D.length = 256) :
    ∃ D', scatter d scatterSchedule D = some D' ∧ D'.length = 256 ∧
      ∀ x < 16, ∀ y < 4, ∀ i < 4, D'[d_idx x y i]? = some (d x y i) :=
  scatter_full_of_mem d scatterSchedule mem_scatterSchedule D hD

/-- The scatter result depends neither on the order of the stores nor on the
initial content of D. -/
theorem scatter_independent_of_mem (d : Nat → Nat → Nat → Int)
    (sched1 sched2 : List (Nat × Nat × Nat))
    (hm1 : ∀ t, t ∈ sched1 ↔ t.1 < 16 ∧ t.2.1 < 4 ∧ t.2.2 < 4)
    (hm2 : ∀ t, t ∈ sched2 ↔ t.1 < 16 ∧ t.2.1 < 4 ∧ t.2.2 < 4)
    (D1 D2 : List Int) (h1 : D1.length = 256) (h2 : D2.length = 256) :
    scatter d sched1 D1 = scatter d sched2 D2 := by
  obtain ⟨E1, hr1, hl1, hv1⟩ := scatter_full_of_mem d sched1 hm1 D1 h1
  obtain ⟨E2, hr2, hl2, hv2⟩ := scatter_full_of_mem d sched2 hm2 D2 h2
  rw [hr1, hr2]
  congr 1
  apply List.ext_getElem?
  intro p
  by_cases hp : p < 256
  · obtain ⟨x, hx, y, hy, i, hi, rfl⟩ := d_idx_layout.2.2 p hp
    rw [hv1 x hx y hy i hi, hv2 x hx y hy i hi]
  · rw [List.getElem?_eq_none (by omega), List.getElem?_eq_none (by omega)]

/-- The scatter result does not depend on the initial content of D. -/
theorem scatter_independent (d : Nat → Nat → Nat → Int) (D1 D2 : List Int)
    (h1 : D1.length = 256) (h2 : D2.length = 256) :
    scatter d scatterSchedule D1 = scatter d scatterSchedule D2 :=
  scatter_independent_of_mem d _ _ mem_scatterSchedule mem_scatterSchedule D1 D2 h1 h2

/-! ## The kernel as a whole -/

theorem igemm_spec (gfx90a gfx908 : Bool) (A B D : List Int)
    (hw : (gfx90a || gfx908) = true)
    (hAl : A.length = 256) (hBl : B.length = 256) (hDl : D.length = 256)
    (hA : ∀ v ∈ A, IsInt8 v) (hB : ∀ v ∈ B, IsInt8 v) :
    ∃ D', igemm_16x16x16 gfx90a gfx908 A B D = some D' ∧ D'.length = 256 ∧
      ∀ r < 16, ∀ c < 16, D'[r * 16 + c]? = some (matmulEntry A B r c) := by
  have hg := gatherLanes_spec A B lanes
    (fun t ht i hi => by
      rw [hAl]; exact a_idx_layout.1 _ ((mem_lanes t).mp ht).1 _ ((mem_lanes t).mp ht).2 _ hi)
    (fun t ht i hi => by
      rw [hBl]; exact b_idx_layout.1 _ ((mem_lanes t).mp ht).1 _ ((mem_lanes t).mp ht).2 _ hi)
  obtain ⟨D', hrun, hlen, hval⟩ := scatter_full
    (v_mfma_i32_16x16x16i8
      (fun x y => (laneRegs (lanes.map (fun t =>
        (pack4 (fun i => A.getD (a_idx t.1 t.2 i) 0),
         pack4 (fun i => B.getD (b_idx t.1 t.2 i) 0)))) x y).1)
      (fun x y => (laneRegs (lanes.map (fun t =>
        (pack4 (fun i => A.getD (a_idx t.1 t.2 i) 0),
         pack4 (fun i => B.getD (b_idx t.1 t.2 i) 0)))) x y).2)
      (fun _ _ _ => 0)) D hDl
  refine ⟨D', ?_, hlen, ?_⟩
  · unfold igemm_16x16x16
    rw [if_pos hw, hg]
    exact hrun
  · intro r hr c hc
    have h := hval c hc (r / 4) (by omega) (r % 4) (Nat.mod_lt _ (by omega))
    rw [mfma_gathered A B hA hB _ rfl c (r / 4) (r % 4) hc (by omega) (Nat.mod_lt _ (by omega)),
      wrap32_matmulEntry A B hA hB, d_idx_eq] at h
    have e1 : (r % 4 + 4 * (r / 4)) * 16 + c = r * 16 + c := by omega
    have e2 : 4 * (r / 4) + r % 4 = r := by omega
    rw [e1, e2] at h
    exact h

/-- The kernel result does not depend on the initial content of D. -/
theorem igemm_independent (gfx90a gfx908 : Bool) (A B D1 D2 : List Int)
    (hw : (gfx90a || gfx908) = true) (h1 : D1.length = 256) (h2 : D2.length = 256) :
    igemm_16x16x16 gfx90a gfx908 A B D1 = igemm_16x16x16 gfx90a gfx908 A B D2 := by
  unfold igemm_16x16x16
  rw [if_pos hw, if_pos hw]
  cases gatherLanes A B lanes with
  | none => rfl
  | some regs => exact scatter_independent _ D1 D2 h1 h2

/-- Lane number `l` is thread `(l % 16, l / 16)`. -/
theorem lanes_getElem? (l : Nat) (hl : l < 64) : lanes[l]? = some (l % 16, l / 16) := by
  unfold lanes
  simp [List.getElem?_map, List.getElem?_range hl]

/-- The B index map is a bijection onto `[0, 256)` for no shape but `(16, 4)`.
-/
theorem layoutBijection_b_idx_only (X Y : Nat) (hX : 0 < X) (hY : 0 < Y)
    (h : LayoutBijection b_idx X Y) : X = 16 ∧ Y = 4 := by
  obtain ⟨hr, hinj, hsur⟩ := h
  have hX16 : X ≤ 16 := by
    by_contra hc
    have := hinj 16 (by omega) 0 hY 0 (by omega) 0 hX 0 hY 1 (by omega)
      (by rw [b_idx_eq, b_idx_eq])
    omega
  have hY4 : Y ≤ 4 := by
    by_contra hc
    have := hr 0 hX 4 (by omega) 0 (by omega)
    rw [b_idx_eq] at this
    omega
  obtain ⟨x, hx, y, hy, i, hi, e⟩ := hsur 15 (by omega)
  obtain ⟨x', hx', y', hy', i', hi', e'⟩ := hsur 255 (by omega)
  rw [b_idx_eq] at e e'
  omega

/-- The D index map is a bijection onto `[0, 256)` for no shape but `(16, 4)`.
-/
theorem layoutBijection_d_idx_only (X Y : Nat) (hX : 0 < X) (hY : 0 < Y)
    (h : LayoutBijection d_idx X Y) : X = 16 ∧ Y = 4 := by
  have e : d_idx = b_idx := by
    funext x y i
    rw [d_idx_eq, b_idx_eq]
  rw [e] at h
  exact layoutBijection_b_idx_only X Y hX hY h

/-- The A index map is a bijection onto `[0, 256)` for no shape but `(16, 4)`
and `(1, 64)`. -/
theorem layoutBijection_a_idx_only (X Y : Nat) (hX : 0 < X) (hY : 0 < Y)
    (h : LayoutBijection a_idx X Y) : (X = 16 ∧ Y = 4) ∨ (X = 1 ∧ Y = 64) := by
  obtain ⟨hr, hinj, hsur⟩ := h
  have hX16 : X ≤ 16 := by
    by_contra hc
    have := hr 16 (by omega) 0 hY 0 (by omega)
    rw [a_idx_eq] at this
    omega
  obtain ⟨x, hx, y, hy, i, hi, e⟩ := hsur 15 (by omega)
  obtain ⟨x', hx', y', hy', i', hi', e'⟩ := hsur 255 (by omega)
  rw [a_idx_eq] at e e'
  by_cases hY4 : Y ≤ 4
  · left; omega
  · right
    have hX1 : X = 1 := by
      by_contra hc
      have := hinj 0 hX 4 (by omega) 0 (by omega) 1 (by omega) 0 hY 0 (by omega)
        (by rw [a_idx_eq, a_idx_eq])
      omega
    have := hr 0 hX (Y - 1) (by omega) 3 (by omega)
    rw [a_idx_eq] at this
    omega

/-- For the shape `(1, 64)` the A index is `i + 4 * y`, a bijection onto `[0,
256)`. -/
theorem a_idx_layout_1x64 : LayoutBijection a_idx 1 64 := by
  refine ⟨?_, ?_, ?_⟩
  · intro x hx y hy i hi
    rw [a_idx_eq]; omega
  · intro x hx y hy i hi x' hx' y' hy' i' hi' h
    rw [a_idx_eq, a_idx_eq] at h; omega
  · intro p hp
    refine ⟨0, by omega, p / 4, by omega, p % 4, by omega, ?_⟩
    rw [a_idx_eq]; omega

/-- Under a layout bijection every position is held by exactly one triple. -/
theorem layout_existsUnique (idx : Nat → Nat → Nat → Nat) (X Y : Nat)
    (h : LayoutBijection idx X Y) (p : Nat) (hp : p < 256) :
    ∃! t : Nat × Nat × Nat, t.1 < X ∧ t.2.1 < Y ∧ t.2.2 < 4 ∧ idx t.1 t.2.1 t.2.2 = p := by
  obtain ⟨_, hinj, hsur⟩ := h
  obtain ⟨x, hx, y, hy, i, hi, e⟩ := hsur p hp
  refine ⟨(x, y, i), ⟨hx, hy, hi, e⟩, ?_⟩
  rintro ⟨x', y', i'⟩ ⟨hx', hy', hi', e'⟩
  obtain ⟨e1, e2, e3⟩ := hinj x' hx' y' hy' i' hi' x hx y hy i hi (e'.trans e.symm)
  rw [e1, e2, e3]

/-- A layout bijection is a bijection between the set of triples and `[0, 256)`.
-/
theorem layout_bijOn (idx : Nat → Nat → Nat → Nat) (X Y : Nat)
    (h : LayoutBijection idx X Y) :
    Set.BijOn (fun t : Nat × Nat × Nat => idx t.1 t.2.1 t.2.2)
      {t | t.1 < X ∧ t.2.1 < Y ∧ t.2.2 < 4} (Set.Iio 256) := by
  obtain ⟨hr, hinj, hsur⟩ := h
  refine ⟨?_, ?_, ?_⟩
  · rintro ⟨x, y, i⟩ ⟨hx, hy, hi⟩
    exact hr x hx y hy i hi
  · rintro ⟨x, y, i⟩ ⟨hx, hy, hi⟩ ⟨x', y', i'⟩ ⟨hx', hy', hi'⟩ e
    obtain ⟨e1, e2, e3⟩ := hinj x hx y hy i hi x' hx' y' hy' i' hi' e
    rw [e1, e2, e3]
  · intro p hp
    obtain ⟨x, hx, y, hy, i, hi, e⟩ := hsur p hp
    exact ⟨(x, y, i), ⟨hx, hy, hi⟩, e⟩

/-- If lane number `l` is thread `(x, y)` then `l < 64`, `x = l % 16` and `y = l
/ 16`. -/
theorem lanes_getElem?_inv (l x y : Nat) (h : lanes[l]? = some (x, y)) :
    l < 64 ∧ x = l % 16 ∧ y = l / 16 := by
  by_cases hl : l < 64
  · rw [lanes_getElem? l hl] at h
    have h1 := congrArg Prod.fst (Option.some.inj h)
    have h2 := congrArg Prod.snd (Option.some.inj h)
    simp only at h1 h2
    exact ⟨hl, h1.symm, h2.symm⟩
  · have hlen : lanes.length = 64 := by simp [lanes]
    rw [List.getElem?_eq_none (by omega)] at h
    exact absurd h (by simp)

/-- Every entry of the all-ones matrix is 1. -/
theorem getD_replicate_one (p : Nat) (hp : p < 256) :
    (List.replicate 256 (1 : Int)).getD p 0 = 1 := by
  rw [List.getD_eq_getElem?_getD, List.getElem?_replicate_of_lt hp]
  rfl

/-- Values in `[-100, 100]` are `int8_t` values. -/
theorem isInt8_of_tested_range (A : List Int) (hA : ∀ v ∈ A, -100 ≤ v ∧ v ≤ 100) :
    ∀ v ∈ A, IsInt8 v := by
  intro v hv
  have := hA v hv
  unfold IsInt8
  omega

/-- Every element read from a buffer of values in `[-100, 100]` is at most 100
in absolute value. -/
theorem abs_getD_le_100 (A : List Int) (hA : ∀ v ∈ A, -100 ≤ v ∧ v ≤ 100) (p : Nat) :
    |A.getD p 0| ≤ 100 := by
  rw [abs_le]
  by_cases hp : p < A.length
  · rw [List.getD_eq_getElem _ _ hp]
    have := hA _ (List.getElem_mem hp)
    omega
  · rw [List.getD_eq_default _ _ (by omega)]
    omega

/-- The entries of the identity matrix are `int8_t` values. -/
theorem identity_isInt8 (B : List Int) (hBl : B.length = 256)
    (hB : ∀ k < 16, ∀ c < 16, B[k * 16 + c]? = some (if k = c then 1 else 0)) :
    ∀ v ∈ B, IsInt8 v := by
  intro v hv
  obtain ⟨n, hn, rfl⟩ := List.getElem_of_mem hv
  have h := hB (n / 16) (by omega) (n % 16) (Nat.mod_lt _ (by omega))
  have e : n / 16 * 16 + n % 16 = n := by omega
  rw [e, List.getElem?_eq_getElem hn] at h
  rw [Option.some.inj h]
  unfold IsInt8
  split <;> omega

/-- Multiplying by the identity matrix on the right returns the entry of A. -/
theorem matmulEntry_identity (A B : List Int)
    (hB : ∀ k < 16, ∀ c < 16, B[k * 16 + c]? = some (if k = c then 1 else 0))
    (r c : Nat) (hc : c < 16) : matmulEntry A B r c = A.getD (r * 16 + c) 0 := by
  unfold matmulEntry
  rw [Finset.sum_eq_single c]
  · rw [List.getD_eq_getElem?_getD B, hB c hc c hc]
    simp
  · intro k hk hkc
    rw [List.getD_eq_getElem?_getD B, hB k (Finset.mem_range.mp hk) c hc]
    simp [hkc]
  · intro h
    exact absurd (Finset.mem_range.mpr hc) h

/-- The instruction returns accumulator plus sum of products, as a signed 32-bit
value. -/
theorem v_mfma_eq (srcA srcB : Nat → Nat → Nat) (srcC : Nat → Nat → Nat → Int) (x y i : Nat) :
    v_mfma_i32_16x16x16i8 srcA srcB srcC x y i
      = wrap32 (srcC x y i + ∑ k in Finset.range 16,
          slot8 (srcA (4 * y + i) (k / 4)) (k % 4) * slot8 (srcB x (k / 4)) (k % 4)) := by
  unfold v_mfma_i32_16x16x16i8
  rw [accumulate32_eq]

/-! ## Control flow of `main` -/

theorem andThen_ending (e : Event) (rest : Run) : (andThen e rest).ending = rest.ending := rfl

/-- An unchecked statement is recorded before the rest of the run. -/
theorem andThen_events (e : Event) (rest : Run) :
    (andThen e rest).events = e :: rest.events := rfl

/-- A loop of unchecked statements does not end the run. -/
theorem andThenAll_ending (es : List Event) (rest : Run) :
    (andThenAll es rest).ending = rest.ending := rfl

/-- An event that is neither in the loop nor in the rest is not in the run. -/
theorem andThenAll_not_mem (es : List Event) (rest : Run) (e : Event)
    (hne : e ∉ es) (h : e ∉ rest.events) : e ∉ (andThenAll es rest).events := by
  unfold andThenAll
  simpa using ⟨hne, h⟩

/-- A checked call never ends the run by `exit`. -/
theorem HIP_CHECK_no_exit (ok : Bool) (n : Nat) (call : Event) (rest : Run)
    (h : ∀ code, rest.ending ≠ Ending.exit code) :
    ∀ code, (HIP_CHECK ok n call rest).ending ≠ Ending.exit code := by
  intro code
  unfold HIP_CHECK
  cases ok
  · simp
  · simpa using h code

/-- An event other than the checked call and not in the rest is not in the run.
-/
theorem HIP_CHECK_not_mem (ok : Bool) (n : Nat) (call : Event) (rest : Run) (e : Event)
    (hne : e ≠ call) (h : e ∉ rest.events) : e ∉ (HIP_CHECK ok n call rest).events := by
  unfold HIP_CHECK
  cases ok
  · simpa using hne
  · simpa using ⟨hne, h⟩

/-- An event other than the statement and not in the rest is not in the run. -/
theorem andThen_not_mem (call : Event) (rest : Run) (e : Event)
    (hne : e ≠ call) (h : e ∉ rest.events) : e ∉ (andThen call rest).events := by
  rw [andThen_events]
  simpa using ⟨hne, h⟩

/-- Past the gate, `main` never ends by `exit`. -/
theorem mainAfterGate_no_exit (hipOk : Nat → Bool) :
    ∀ code, (mainAfterGate hipOk).ending ≠ Ending.exit code := by
  unfold mainAfterGate
  rw [andThen_ending]
  refine HIP_CHECK_no_exit _ _ _ _ ?_
  refine HIP_CHECK_no_exit _ _ _ _ ?_
  refine HIP_CHECK_no_exit _ _ _ _ ?_
  refine HIP_CHECK_no_exit _ _ _ _ ?_
  refine HIP_CHECK_no_exit _ _ _ _ ?_
  refine HIP_CHECK_no_exit _ _ _ _ ?_
  rw [andThen_ending]
  refine HIP_CHECK_no_exit _ _ _ _ ?_
  refine HIP_CHECK_no_exit _ _ _ _ ?_
  refine HIP_CHECK_no_exit _ _ _ _ ?_
  rw [andThen_ending, andThenAll_ending]
  refine HIP_CHECK_no_exit _ _ _ _ ?_
  refine HIP_CHECK_no_exit _ _ _ _ ?_
  refine HIP_CHECK_no_exit _ _ _ _ ?_
  intro code
  simp

/-- Past the gate, `main` does not print the diagnostic of the gate. -/
theorem mainAfterGate_no_gateMessage (hipOk : Nat → Bool) :
    Event.print gateMessage ∉ (mainAfterGate hipOk).events := by
  unfold mainAfterGate
  refine andThen_not_mem _ _ _ (by simp) ?_
  refine HIP_CHECK_not_mem _ _ _ _ _ (by simp) ?_
  refine HIP_CHECK_not_mem _ _ _ _ _ (by simp) ?_
  refine HIP_CHECK_not_mem _ _ _ _ _ (by simp) ?_
  refine HIP_CHECK_not_mem _ _ _ _ _ (by simp) ?_
  refine HIP_CHECK_not_mem _ _ _ _ _ (by simp) ?_
  refine HIP_CHECK_not_mem _ _ _ _ _ (by simp) ?_
  refine andThen_not_mem _ _ _ (by simp) ?_
  refine HIP_CHECK_not_mem _ _ _ _ _ (by simp) ?_
  refine HIP_CHECK_not_mem _ _ _ _ _ (by simp) ?_
  refine HIP_CHECK_not_mem _ _ _ _ _ (by simp) ?_
  refine andThen_not_mem _ _ _ (by simp) ?_
  refine andThenAll_not_mem _ _ _ (by simp) ?_
  refine HIP_CHECK_not_mem _ _ _ _ _ (by simp) ?_
  refine HIP_CHECK_not_mem _ _ _ _ _ (by simp) ?_
  refine HIP_CHECK_not_mem _ _ _ _ _ (by simp) ?_
  simp

/-- Past the gate, `main` launches the kernel unless one of the six checks
before the launch stops it. -/
theorem mainAfterGate_launch_or_check (hipOk : Nat → Bool) :
    Event.launch 1 16 4 ∈ (mainAfterGate hipOk).events ∨
      ∃ n < 6, (mainAfterGate hipOk).ending = Ending.checkFailed n := by
  unfold mainAfterGate
  cases h0 : hipOk 0
  · exact Or.inr ⟨0, by omega, by simp [HIP_CHECK, andThen]⟩
  cases h1 : hipOk 1
  · exact Or.inr ⟨1, by omega, by simp [HIP_CHECK, andThen]⟩
  cases h2 : hipOk 2
  · exact Or.inr ⟨2, by omega, by simp [HIP_CHECK, andThen]⟩
  cases h3 : hipOk 3
  · exact Or.inr ⟨3, by omega, by simp [HIP_CHECK, andThen]⟩
  cases h4 : hipOk 4
  · exact Or.inr ⟨4, by omega, by simp [HIP_CHECK, andThen]⟩
  cases h5 : hipOk 5
  · exact Or.inr ⟨5, by omega, by simp [HIP_CHECK, andThen]⟩
  exact Or.inl (by simp [HIP_CHECK, andThen])

/-- Past the gate, `main` launches the kernel when the six checks before the
launch pass. -/
theorem mainAfterGate_launch (hipOk : Nat → Bool) (h : ∀ n < 6, hipOk n = true) :
    Event.launch 1 16 4 ∈ (mainAfterGate hipOk).events := by
  unfold mainAfterGate
  rw [h 0 (by omega), h 1 (by omega), h 2 (by omega), h 3 (by omega), h 4 (by omega),
    h 5 (by omega)]
  simp [HIP_CHECK, andThen]

/-! ## The claims -/

/-- C2: the A gather index `a_idx x y i = x * LDA + i + 4 * y`, with `LDA = 16`,
is a bijection from the 256 triples `(x, y, i)`, `x < 16`, `y < 4`, `i < 4`,
onto the linear positions `[0, 256)` of A: no index falls outside `[0, 256)`,
no position is covered twice, and every position is held by exactly one
(lane, slot). -/
theorem a_idx_bijection :
    LDA = 16 ∧ A_size = 256 ∧
    (Finset.range 16 ×ˢ Finset.range 4 ×ˢ Finset.range 4).card = 256 ∧
    (∀ x y i, a_idx x y i = x * LDA + i + 4 * y) ∧
    (∀ x < 16, ∀ y < 4, ∀ i < 4, a_idx x y i < 256) ∧
    (∀ x < 16, ∀ y < 4, ∀ i < 4, ∀ x' < 16, ∀ y' < 4, ∀ i' < 4,
      a_idx x y i = a_idx x' y' i' → x = x' ∧ y = y' ∧ i = i') ∧
    (∀ p < 256, ∃! t : Nat × Nat × Nat,
      t.1 < 16 ∧ t.2.1 < 4 ∧ t.2.2 < 4 ∧ a_idx t.1 t.2.1 t.2.2 = p) ∧
    Set.BijOn (fun t : Nat × Nat × Nat => a_idx t.1 t.2.1 t.2.2)
      {t | t.1 < 16 ∧ t.2.1 < 4 ∧ t.2.2 < 4} (Set.Iio 256) :=
  ⟨rfl, rfl, by simp, fun x y i => by simp only [a_idx, LDA, K]; omega, a_idx_layout.1, a_idx_layout.2.1,
    layout_existsUnique a_idx 16 4 a_idx_layout, layout_bijOn a_idx 16 4 a_idx_layout⟩

/-- Witness of C2 at lane `(5, 2)`, slot `3`: the index is `5 * 16 + 3 + 8 = 91`,
inside A. -/
theorem a_idx_bijection_witness : a_idx 5 2 3 = 91 ∧ a_idx 5 2 3 < 256 :=
  ⟨by decide, a_idx_bijection.2.2.2.2.1 5 (by decide) 2 (by decide) 3 (by decide)⟩

/-- C3: the B gather index `b_idx x y i = x + i * LDB + 4 * y * LDB`, with
`LDB = 16`, is a bijection from the 256 triples `(x, y, i)`, `x < 16`, `y < 4`,
`i < 4`, onto the linear positions `[0, 256)` of B: no index falls outside
`[0, 256)` and every element of B is held by exactly one (lane, slot). -/
theorem b_idx_bijection :
    LDB = 16 ∧ B_size = 256 ∧
    (Finset.range 16 ×ˢ Finset.range 4 ×ˢ Finset.range 4).card = 256 ∧
    (∀ x y i, b_idx x y i = x + i * LDB + 4 * y * LDB) ∧
    (∀ x < 16, ∀ y < 4, ∀ i < 4, b_idx x y i < 256) ∧
    (∀ x < 16, ∀ y < 4, ∀ i < 4, ∀ x' < 16, ∀ y' < 4, ∀ i' < 4,
      b_idx x y i = b_idx x' y' i' → x = x' ∧ y = y' ∧ i = i') ∧
    (∀ p < 256, ∃! t : Nat × Nat × Nat,
      t.1 < 16 ∧ t.2.1 < 4 ∧ t.2.2 < 4 ∧ b_idx t.1 t.2.1 t.2.2 = p) ∧
    Set.BijOn (fun t : Nat × Nat × Nat => b_idx t.1 t.2.1 t.2.2)
      {t | t.1 < 16 ∧ t.2.1 < 4 ∧ t.2.2 < 4} (Set.Iio 256) :=
  ⟨rfl, rfl, by simp, fun x y i => by simp only [b_idx, LDB, N]; omega, b_idx_layout.1, b_idx_layout.2.1,
    layout_existsUnique b_idx 16 4 b_idx_layout, layout_bijOn b_idx 16 4 b_idx_layout⟩

/-- Witness of C3 at lane `(5, 2)`, slot `3`: the index is `5 + 48 + 128 = 181`,
inside B. -/
theorem b_idx_bijection_witness : b_idx 5 2 3 = 181 ∧ b_idx 5 2 3 < 256 :=
  ⟨by decide, b_idx_bijection.2.2.2.2.1 5 (by decide) 2 (by decide) 3 (by decide)⟩

/-- C8: the register layout of A.  For every lane `(x, y)` and slot `i` the
gathered `a[i]` is `A[row = x][col = i + 4 * y]`: `a_idx = row * LDA + col`
with `row = a_idx / 16 = x` and `col = a_idx % 16 = i + 4 * y < 16`.  So slot
`a[i]` covers exactly the columns `i, i + 4, i + 8, i + 12`; in the first 16
lanes (`y = 0`) it holds column `i`, in the last 16 lanes (`y = 3`) column
`i + 12`. -/
theorem a_register_layout :
    (∀ x < 16, ∀ y < 4, ∀ i < 4,
      a_idx x y i = x * LDA + (i + 4 * y) ∧ a_idx x y i / 16 = x ∧
        a_idx x y i % 16 = i + 4 * y ∧ i + 4 * y < 16) ∧
    (∀ A B : List Int, A.length = 256 → B.length = 256 → ∀ x < 16, ∀ y < 4,
      ∃ g, gatherLoop A B x y 4 = some g ∧
        ∀ i < 4, A[x * 16 + (i + 4 * y)]? = some (g.a i)) ∧
    (∀ i < 4, ∀ col, (∃ x < 16, ∃ y < 4, a_idx x y i % 16 = col) ↔
      (col = i ∨ col = i + 4 ∨ col = i + 8 ∨ col = i + 12)) ∧
    (∀ l x y, lanes[l]? = some (x, y) → ∀ i < 4,
      (l < 16 → y = 0 ∧ a_idx x y i % 16 = i) ∧
      (48 ≤ l → y = 3 ∧ a_idx x y i % 16 = i + 12)) := by
  refine ⟨?_, ?_, ?_, ?_⟩
  · intro x hx y hy i hi
    rw [a_idx_eq]
    exact ⟨by simp only [LDA, K], by omega, by omega, by omega⟩
  · intro A B hA hB x hx y hy
    obtain ⟨g, hg, hspec⟩ := gatherLoop_spec A B x y 4
      (fun i hi => by rw [hA]; exact a_idx_layout.1 x hx y hy i hi)
      (fun i hi => by rw [hB]; exact b_idx_layout.1 x hx y hy i hi)
    refine ⟨g, hg, fun i hi => ?_⟩
    have hlt : x * 16 + (i + 4 * y) < A.length := by omega
    rw [(hspec i hi).1, a_idx_eq, List.getD_eq_getElem _ _ hlt, List.getElem?_eq_getElem hlt]
  · intro i hi col
    constructor
    · rintro ⟨x, hx, y, hy, e⟩
      rw [a_idx_eq] at e
      omega
    · intro h
      refine ⟨0, by omega, (col - i) / 4, by omega, ?_⟩
      rw [a_idx_eq]
      omega
  · intro l x y h i hi
    obtain ⟨hl, rfl, rfl⟩ := lanes_getElem?_inv l x y h
    rw [a_idx_eq, Nat.mul_comm (l % 16) 16, Nat.mul_add_mod]
    exact ⟨fun h1 => ⟨by omega, by omega⟩, fun h2 => ⟨by omega, by omega⟩⟩

/-- Witness of C8 in lane 53, which is thread `(5, 3)`, one of the last 16
lanes: its slot `a[2]` holds column `2 + 12 = 14`. -/
theorem a_register_layout_witness : a_idx 5 3 2 % 16 = 2 + 12 :=
  ((a_register_layout.2.2.2 53 5 3 (by decide) 2 (by decide)).2 (by decide)).2

/-- C9: B and D share one register layout.  For every lane `(x, y)` and slot
`i`, `b_idx x y i = d_idx x y i = (i + 4 * y) * 16 + x`: `b[i]` is
`B[row = i + 4 * y][col = x]` and `d[i]` is written to
`D[row = i + 4 * y][col = x]`, with `row = idx / 16 = i + 4 * y < 16` and
`col = idx % 16 = x`.  So slot `i` covers exactly the rows
`i, i + 4, i + 8, i + 12`; in the first 16 lanes (`y = 0`) it holds row `i`, in
the last 16 lanes (`y = 3`) row `i + 12`. -/
theorem b_d_register_layout :
    (∀ x < 16, ∀ y < 4, ∀ i < 4,
      b_idx x y i = (i + 4 * y) * 16 + x ∧ d_idx x y i = (i + 4 * y) * 16 + x ∧
        b_idx x y i = d_idx x y i ∧ b_idx x y i / 16 = i + 4 * y ∧ i + 4 * y < 16 ∧
        b_idx x y i % 16 = x) ∧
    (∀ A B : List Int, A.length = 256 → B.length = 256 → ∀ x < 16, ∀ y < 4,
      ∃ g, gatherLoop A B x y 4 = some g ∧
        ∀ i < 4, B[(i + 4 * y) * 16 + x]? = some (g.b i)) ∧
    (∀ (d : Nat → Nat → Nat → Int) (D : List Int) (x y i : Nat),
      scatterStep d D (x, y, i) = store D ((i + 4 * y) * 16 + x) (d x y i)) ∧
    (∀ i < 4, ∀ row, (∃ x < 16, ∃ y < 4, b_idx x y i / 16 = row) ↔
      (row = i ∨ row = i + 4 ∨ row = i + 8 ∨ row = i + 12)) ∧
    (∀ l x y, lanes[l]? = some (x, y) → ∀ i < 4,
      (l < 16 → y = 0 ∧ b_idx x y i / 16 = i ∧ d_idx x y i / 16 = i) ∧
      (48 ≤ l → y = 3 ∧ b_idx x y i / 16 = i + 12 ∧ d_idx x y i / 16 = i + 12)) := by
  refine ⟨?_, ?_, ?_, ?_, ?_⟩
  · intro x hx y hy i hi
    rw [b_idx_eq, d_idx_eq]
    omega
  · intro A B hA hB x hx y hy
    obtain ⟨g, hg, hspec⟩ := gatherLoop_spec A B x y 4
      (fun i hi => by rw [hA]; exact a_idx_layout.1 x hx y hy i hi)
      (fun i hi => by rw [hB]; exact b_idx_layout.1 x hx y hy i hi)
    refine ⟨g, hg, fun i hi => ?_⟩
    have hlt : (i + 4 * y) * 16 + x < B.length := by omega
    rw [(hspec i hi).2, b_idx_eq, List.getD_eq_getElem _ _ hlt, List.getElem?_eq_getElem hlt]
  · intro d D x y i
    simp only [scatterStep, d_idx_eq]
  · intro i hi row
    constructor
    · rintro ⟨x, hx, y, hy, e⟩
      rw [b_idx_eq] at e
      omega
    · intro h
      refine ⟨0, by omega, (row - i) / 4, by omega, ?_⟩
      rw [b_idx_eq]
      omega
  · intro l x y h i hi
    obtain ⟨hl, rfl, rfl⟩ := lanes_getElem?_inv l x y h
    rw [b_idx_eq, d_idx_eq]
    exact ⟨fun h1 => ⟨by omega, by omega, by omega⟩, fun h2 => ⟨by omega, by omega, by omega⟩⟩

/-- Witness of C9 in lane 53, which is thread `(5, 3)`, one of the last 16
lanes: its slots `b[2]` and `d[2]` hold row `2 + 12 = 14`. -/
theorem b_d_register_layout_witness :
    b_idx 5 3 2 / 16 = 2 + 12 ∧ d_idx 5 3 2 / 16 = 2 + 12 :=
  ((b_d_register_layout.2.2.2.2 53 5 3 (by decide) 2 (by decide)).2 (by decide)).2

/-- C1: for all 16x16 row-major matrices A and B of signed 8-bit integers with
every entry in `[-100, 100]`, the kernel run by the 64 lanes (gather
`a[i] = A[a_idx]`, `b[i] = B[b_idx]`, one `v_mfma_i32_16x16x16i8` with a zero
accumulator, scatter `D[d_idx] = d[i]`) terminates without an out-of-bounds
access and leaves `D[r * 16 + c] = Σ_{k < 16} A[r * 16 + k] * B[k * 16 + c]`
for every `r, c < 16`.  The instruction is the register-level model: result
slot `i` of lane `(x, y)` is accumulator slot `i` plus the sum over `k < 16`
of a-slot `k % 4` of lane `(4 * y + i, k / 4)` times b-slot `k % 4` of lane
`(x, k / 4)`, held in a signed 32-bit register. -/
theorem igemm_16x16x16_computes_product (gfx90a gfx908 : Bool) (A B D : List Int)
    (hw : (gfx90a || gfx908) = true)
    (hAl : A.length = 256) (hBl : B.length = 256) (hDl : D.length = 256)
    (hA : ∀ v ∈ A, -100 ≤ v ∧ v ≤ 100) (hB : ∀ v ∈ B, -100 ≤ v ∧ v ≤ 100) :
    (∀ (srcA srcB : Nat → Nat → Nat) (srcC : Nat → Nat → Nat → Int) (x y i : Nat),
      v_mfma_i32_16x16x16i8 srcA srcB srcC x y i
        = wrap32 (srcC x y i + ∑ k in Finset.range 16,
            slot8 (srcA (4 * y + i) (k / 4)) (k % 4) * slot8 (srcB x (k / 4)) (k % 4))) ∧
    ∃ D', igemm_16x16x16 gfx90a gfx908 A B D = some D' ∧ D'.length = 256 ∧
      ∀ r < 16, ∀ c < 16,
        D'[r * 16 + c]? =
          some (∑ k in Finset.range 16, A.getD (r * 16 + k) 0 * B.getD (k * 16 + c) 0) := by
  refine ⟨v_mfma_eq, ?_⟩
  obtain ⟨D', hrun, hlen, hval⟩ := igemm_spec gfx90a gfx908 A B D hw hAl hBl hDl
    (isInt8_of_tested_range A hA) (isInt8_of_tested_range B hB)
  exact ⟨D', hrun, hlen, hval⟩

/-- Witness of C1: with A and B all ones, every entry of D is 16. -/
theorem igemm_16x16x16_all_ones :
    ∃ D', igemm_16x16x16 true false (List.replicate 256 1) (List.replicate 256 1)
        (List.replicate 256 0) = some D' ∧
      ∀ r < 16, ∀ c < 16, D'[r * 16 + c]? = some 16 := by
  obtain ⟨D', hrun, _, hval⟩ := (igemm_16x16x16_computes_product true false
    (List.replicate 256 1) (List.replicate 256 1) (List.replicate 256 0) rfl
    (List.length_replicate _ _) (List.length_replicate _ _) (List.length_replicate _ _)
    (fun v hv => by rw [List.eq_of_mem_replicate hv]; omega)
    (fun v hv => by rw [List.eq_of_mem_replicate hv]; omega)).2
  refine ⟨D', hrun, fun r hr c hc => ?_⟩
  have hterm : ∀ k ∈ Finset.range 16,
      (List.replicate 256 (1 : Int)).getD (r * 16 + k) 0
        * (List.replicate 256 (1 : Int)).getD (k * 16 + c) 0 = 1 := by
    intro k hk
    have hk16 : k < 16 := Finset.mem_range.mp hk
    rw [getD_replicate_one (r * 16 + k) (by omega), getD_replicate_one (k * 16 + c) (by omega)]
    rfl
  rw [hval r hr c hc, Finset.sum_congr rfl hterm]
  simp

/-- C6: the identity case.  For every 16x16 signed 8-bit matrix A, if B is the
16x16 identity (`B[k * 16 + c] = 1` when `k = c`, else `0`), the kernel leaves
`D[r * 16 + c] = A[r * 16 + c]`, the same integer widened to 32 bits, for every
`r, c < 16`; the whole of D then equals A entry by entry. -/
theorem igemm_16x16x16_identity (gfx90a gfx908 : Bool) (A B D : List Int)
    (hw : (gfx90a || gfx908) = true)
    (hAl : A.length = 256) (hBl : B.length = 256) (hDl : D.length = 256)
    (hA : ∀ v ∈ A, -128 ≤ v ∧ v ≤ 127)
    (hB : ∀ k < 16, ∀ c < 16, B[k * 16 + c]? = some (if k = c then 1 else 0)) :
    (∃ D', igemm_16x16x16 gfx90a gfx908 A B D = some D' ∧ D'.length = 256 ∧
      ∀ r < 16, ∀ c < 16, D'[r * 16 + c]? = A[r * 16 + c]?) ∧
    igemm_16x16x16 gfx90a gfx908 A B D = some A := by
  obtain ⟨D', hrun, hlen, hval⟩ := igemm_spec gfx90a gfx908 A B D hw hAl hBl hDl hA
    (identity_isInt8 B hBl hB)
  have hpt : ∀ r < 16, ∀ c < 16, D'[r * 16 + c]? = A[r * 16 + c]? := by
    intro r hr c hc
    have hlt : r * 16 + c < A.length := by omega
    rw [hval r hr c hc, matmulEntry_identity A B hB r c hc, List.getD_eq_getElem _ _ hlt,
      List.getElem?_eq_getElem hlt]
  refine ⟨⟨D', hrun, hlen, hpt⟩, ?_⟩
  rw [hrun]
  congr 1
  apply List.ext_getElem?
  intro p
  by_cases hp : p < 256
  · have h := hpt (p / 16) (by omega) (p % 16) (Nat.mod_lt _ (by omega))
    have e : p / 16 * 16 + p % 16 = p := by omega
    rw [e] at h
    exact h
  · rw [List.getElem?_eq_none (by omega), List.getElem?_eq_none (by omega)]

/-- Witness of C6: with A all `-128` and B the identity matrix, the kernel
returns A. -/
theorem igemm_16x16x16_identity_witness :
    igemm_16x16x16 false true (List.replicate 256 (-128))
      ((List.range 256).map (fun p => if p / 16 = p % 16 then 1 else 0))
      (List.replicate 256 0) = some (List.replicate 256 (-128)) :=
  (igemm_16x16x16_identity false true (List.replicate 256 (-128))
    ((List.range 256).map (fun p => if p / 16 = p % 16 then 1 else 0))
    (List.replicate 256 0) rfl
    (List.length_replicate _ _) (by simp) (List.length_replicate _ _)
    (fun v hv => by rw [List.eq_of_mem_replicate hv]; omega)
    (fun k hk c hc => by
      have hlt : k * 16 + c < 256 := by omega
      have e1 : (k * 16 + c) / 16 = k := by omega
      have e2 : (k * 16 + c) % 16 = c := by omega
      rw [List.getElem?_map, List.getElem?_range hlt]
      simp only [Option.map_some', e1, e2])).2

/-- C7: no overflow for the tested input range.  For all A, B with every entry
in `[-100, 100]` and every `r, c`, the exact sum
`Σ_{k < 16} A[r][k] * B[k][c]` has absolute value at most
`16 * 100 * 100 = 160000 < 2^31`, so the sixteen wrapping 32-bit
multiply-accumulate steps from the zero accumulator give exactly that sum. -/
theorem accumulate32_exact_for_tested_range (A B : List Int)
    (hA : ∀ v ∈ A, -100 ≤ v ∧ v ≤ 100) (hB : ∀ v ∈ B, -100 ≤ v ∧ v ≤ 100) (r c : Nat) :
    |∑ k in Finset.range 16, A.getD (r * 16 + k) 0 * B.getD (k * 16 + c) 0| ≤ 16 * 100 * 100 ∧
    (16 * 100 * 100 : Int) = 160000 ∧ (160000 : Int) < 2 ^ 31 ∧
    accumulate32 0 (fun k => A.getD (r * 16 + k) 0 * B.getD (k * 16 + c) 0)
      = ∑ k in Finset.range 16, A.getD (r * 16 + k) 0 * B.getD (k * 16 + c) 0 := by
  have h := abs_matmulEntry_le A B 100 (abs_getD_le_100 A hA) (abs_getD_le_100 B hB) r c
  unfold matmulEntry at h
  refine ⟨by linarith, by norm_num, by norm_num, ?_⟩
  rw [accumulate32_eq, zero_add]
  rw [abs_le] at h
  exact wrap32_of_range _ (by omega) (by omega)

/-- Witness of C7: with every entry of A equal to `100` and every entry of B
equal to `-100` the accumulator ends at the exact sum of row 3 and column 5. -/
theorem accumulate32_exact_witness :
    accumulate32 0 (fun k => (List.replicate 256 (100 : Int)).getD (3 * 16 + k) 0
        * (List.replicate 256 (-100 : Int)).getD (k * 16 + 5) 0)
      = ∑ k in Finset.range 16, (List.replicate 256 (100 : Int)).getD (3 * 16 + k) 0
        * (List.replicate 256 (-100 : Int)).getD (k * 16 + 5) 0 :=
  (accumulate32_exact_for_tested_range (List.replicate 256 100) (List.replicate 256 (-100))
    (fun v hv => by rw [List.eq_of_mem_replicate hv]; omega)
    (fun v hv => by rw [List.eq_of_mem_replicate hv]; omega) 3 5).2.2.2

/-- C4: D is fully overwritten, each position exactly once.  The 64 lanes
perform 256 stores `D[d_idx] = d[i]`; every position `p < 256` is the target
of exactly one of them, two distinct (lane, slot) pairs never write the same
address, and for every initial content of D the final D holds `d[i]` of lane
`(x, y)` at `d_idx x y i`.  So the final D depends neither on the prior
content of D nor on the order in which the stores are performed. -/
theorem scatter_overwrites_D (gfx90a gfx908 : Bool) (A B : List Int)
    (d : Nat → Nat → Nat → Int) (D1 D2 : List Int)
    (hw : (gfx90a || gfx908) = true) (h1 : D1.length = 256) (h2 : D2.length = 256) :
    LDD = 16 ∧ D_size = 256 ∧ scatterSchedule.length = 256 ∧
    (∀ t, t ∈ scatterSchedule ↔ t.1 < 16 ∧ t.2.1 < 4 ∧ t.2.2 < 4) ∧
    (∀ p < 256, (scatterSchedule.map (fun t => d_idx t.1 t.2.1 t.2.2)).count p = 1) ∧
    (∀ x < 16, ∀ y < 4, ∀ i < 4, ∀ x' < 16, ∀ y' < 4, ∀ i' < 4,
      d_idx x y i = d_idx x' y' i' → x = x' ∧ y = y' ∧ i = i') ∧
    (∃ D', scatter d scatterSchedule D1 = some D' ∧ D'.length = 256 ∧
      ∀ x < 16, ∀ y < 4, ∀ i < 4, D'[d_idx x y i]? = some (d x y i)) ∧
    scatter d scatterSchedule D1 = scatter d scatterSchedule D2 ∧
    (∀ sched : List (Nat × Nat × Nat), (∀ t, t ∈ sched ↔ t ∈ scatterSchedule) →
      scatter d sched D1 = scatter d scatterSchedule D2) ∧
    igemm_16x16x16 gfx90a gfx908 A B D1 = igemm_16x16x16 gfx90a gfx908 A B D2 := by
  refine ⟨rfl, rfl, scatterSchedule_length, mem_scatterSchedule, ?_, d_idx_layout.2.1,
    scatter_full d D1 h1, scatter_independent d D1 D2 h1 h2, ?_,
    igemm_independent gfx90a gfx908 A B D1 D2 hw h1 h2⟩
  · intro p hp
    refine List.count_eq_one_of_mem scatterSchedule_addresses_nodup ?_
    obtain ⟨x, hx, y, hy, i, hi, e⟩ := d_idx_layout.2.2 p hp
    exact List.mem_map.mpr ⟨(x, y, i), (mem_scatterSchedule _).mpr ⟨hx, hy, hi⟩, e⟩
  · intro sched hs
    exact scatter_independent_of_mem d sched scatterSchedule
      (fun t => (hs t).trans (mem_scatterSchedule t)) mem_scatterSchedule D1 D2 h1 h2

/-- Witness of C4: with result registers `d[i] = x + 100 * y + 1000 * i` the
scatter gives the same D whether D was all zeros or all sevens before. -/
theorem scatter_overwrites_D_witness :
    scatter (fun x y i => x + 100 * y + 1000 * i) scatterSchedule (List.replicate 256 0)
      = scatter (fun x y i => x + 100 * y + 1000 * i) scatterSchedule (List.replicate 256 7) :=
  (scatter_overwrites_D true false [] [] (fun x y i => x + 100 * y + 1000 * i)
    (List.replicate 256 0) (List.replicate 256 7) rfl
    (List.length_replicate _ _) (List.length_replicate _ _)).2.2.2.2.2.2.2.1

/-- C5: the capability gate of `main`, with `gpuArchCheck` a boolean oracle.
If neither `gpuArchCheck("gfx90a")` nor `gpuArchCheck("gfx908")` holds, `main`
prints the diagnostic and ends by `exit(-1)`, a non-zero exit status (255),
before any device allocation, copy or kernel launch.  If at least one holds,
`main` does not exit at the gate: it runs the rest of the program, which
launches the kernel `<<<1, dim3(16, 4)>>>` once the six checked allocations
and copies before the launch have gone through, and nothing else than one of
those six checks keeps it from the launch. -/
theorem main_capability_gate (gpuArchCheck : String → Bool) (hipOk : Nat → Bool) :
    (gpuArchCheck "gfx90a" = false ∧ gpuArchCheck "gfx908" = false →
      main gpuArchCheck hipOk = ⟨[Event.print gateMessage], Ending.exit (-1)⟩ ∧
      exitStatus (main gpuArchCheck hipOk).ending = some 255 ∧
      exitStatus (main gpuArchCheck hipOk).ending ≠ some 0 ∧
      (∀ e ∈ (main gpuArchCheck hipOk).events, Event.isDevice e = false)) ∧
    (gpuArchCheck "gfx90a" = true ∨ gpuArchCheck "gfx908" = true →
      main gpuArchCheck hipOk = mainAfterGate hipOk ∧
      (∀ code, (main gpuArchCheck hipOk).ending ≠ Ending.exit code) ∧
      Event.print gateMessage ∉ (main gpuArchCheck hipOk).events ∧
      (Event.launch 1 16 4 ∈ (main gpuArchCheck hipOk).events ∨
        ∃ n < 6, (main gpuArchCheck hipOk).ending = Ending.checkFailed n) ∧
      ((∀ n < 6, hipOk n = true) →
        Event.launch 1 16 4 ∈ (main gpuArchCheck hipOk).events)) := by
  constructor
  · rintro ⟨ha, hb⟩
    have hm : main gpuArchCheck hipOk = ⟨[Event.print gateMessage], Ending.exit (-1)⟩ := by
      simp [main, ha, hb]
    rw [hm]
    refine ⟨rfl, by decide, by decide, ?_⟩
    intro e he
    rw [List.mem_singleton.mp he]
    rfl
  · intro h
    have hm : main gpuArchCheck hipOk = mainAfterGate hipOk := by
      unfold main
      rcases h with h | h <;> simp [h]
    rw [hm]
    exact ⟨rfl, mainAfterGate_no_exit hipOk, mainAfterGate_no_gateMessage hipOk,
      mainAfterGate_launch_or_check hipOk, mainAfterGate_launch hipOk⟩

/-- Witness of C5.  Gate closed: when the oracle answers no to both
architectures the run is the diagnostic followed by `exit(-1)`.  Gate open:
on a `gfx908` device whose runtime calls succeed the kernel is launched. -/
theorem main_capability_gate_witness :
    main (fun _ => false) (fun _ => true) = ⟨[Event.print gateMessage], Ending.exit (-1)⟩ ∧
    Event.launch 1 16 4 ∈ (main (fun s => s == "gfx908") (fun _ => true)).events :=
  ⟨((main_capability_gate (fun _ => false) (fun _ => true)).1 ⟨rfl, rfl⟩).1,
   ((main_capability_gate (fun s => s == "gfx908") (fun _ => true)).2
      (Or.inr (by decide))).2.2.2.2 (fun _ _ => rfl)⟩

/-- C10, as stated, fails: for the lane-group shape `(1, 64)`, which has
`1 * 64 = 64` lanes and is not `(16, 4)`, the A gather map
`x * 16 + i + 4 * y` is a bijection from the triples onto `[0, 256)`. -/
theorem gather_A_bijective_for_shape_1x64 :
    0 < 1 ∧ 0 < 64 ∧ 1 * 64 = 64 ∧ LayoutBijection a_idx 1 64 ∧
      ((1 : Nat), (64 : Nat)) ≠ (16, 4) :=
  ⟨by decide, by decide, by decide, a_idx_layout_1x64, by decide⟩

/-- C10, amended: for every lane-group shape `(X, Y)` of positive integers, in
particular for those with `X * Y = 64`, the three index maps are bijections
from the triples `(x, y, i)`, `x < X`, `y < Y`, `i < 4`, onto `[0, 256)`
together only if `(X, Y) = (16, 4)`.  Taken one by one, the B gather map and
the D scatter map are bijections exactly for `(16, 4)`, and the A gather map
exactly for `(16, 4)` and `(1, 64)`. -/
theorem layout_valid_only_for_16x4 (X Y : Nat) (hX : 0 < X) (hY : 0 < Y) :
    (LayoutBijection a_idx X Y ∧ LayoutBijection b_idx X Y ∧ LayoutBijection d_idx X Y →
      (X, Y) = (16, 4)) ∧
    (LayoutBijection b_idx X Y ↔ (X, Y) = (16, 4)) ∧
    (LayoutBijection d_idx X Y ↔ (X, Y) = (16, 4)) ∧
    (LayoutBijection a_idx X Y ↔ (X, Y) = (16, 4) ∨ (X, Y) = (1, 64)) := by
  have hb : LayoutBijection b_idx X Y ↔ (X, Y) = (16, 4) := by
    constructor
    · intro h
      obtain ⟨e1, e2⟩ := layoutBijection_b_idx_only X Y hX hY h
      rw [e1, e2]
    · intro h
      obtain ⟨e1, e2⟩ := Prod.mk.inj h
      rw [e1, e2]
      exact b_idx_layout
  have hd : LayoutBijection d_idx X Y ↔ (X, Y) = (16, 4) := by
    constructor
    · intro h
      obtain ⟨e1, e2⟩ := layoutBijection_d_idx_only X Y hX hY h
      rw [e1, e2]
    · intro h
      obtain ⟨e1, e2⟩ := Prod.mk.inj h
      rw [e1, e2]
      exact d_idx_layout
  refine ⟨fun h => hb.mp h.2.1, hb, hd, ?_⟩
  constructor
  · intro h
    rcases layoutBijection_a_idx_only X Y hX hY h with ⟨e1, e2⟩ | ⟨e1, e2⟩
    · left; rw [e1, e2]
    · right; rw [e1, e2]
  · rintro (h | h)
    · obtain ⟨e1, e2⟩ := Prod.mk.inj h
      rw [e1, e2]
      exact a_idx_layout
    · obtain ⟨e1, e2⟩ := Prod.mk.inj h
      rw [e1, e2]
      exact a_idx_layout_1x64

/-- Witness of the amended C10 at the shape `(8, 8)`: it has 64 lanes and none
of the three maps is a bijection there. -/
theorem layout_valid_only_for_16x4_witness :
    ¬ LayoutBijection a_idx 8 8 ∧ ¬ LayoutBijection b_idx 8 8 ∧ ¬ LayoutBijection d_idx 8 8 :=
  ⟨fun h => absurd ((layout_valid_only_for_16x4 8 8 (by decide) (by decide)).2.2.2.mp h)
      (by decide),
   fun h => absurd ((layout_valid_only_for_16x4 8 8 (by decide) (by decide)).2.1.mp h)
      (by decide),
   fun h => absurd ((layout_valid_only_for_16x4 8 8 (by decide) (by decide)).2.2.1.mp h)
      (by decide)⟩

end MatrixCores
